import Mathlib

/-!
# Verification of the ispc-rs runtime and build configuration

Shallow embedding of `src/src/lib.rs` of the ispc-rs repository, together
with theorems settling the specification claims about it.

The repository declares `mod task;` but the task-model file itself is not
part of the sources; where the embedding needs its behaviour (the
`Context`, `TaskGroup`, chunk iteration and execution), the definitions
are modelled from the specification and say so in their doc comments.
-/

namespace IspcRs

/-! ## Build configuration (`Config`, src/src/lib.rs:139-333)

Only the fields read by `default_args` and `compile` are modelled; the
remaining fields (`objects`, `headers`, `include_directories`,
`bindgen_header`, `out_dir`, `target`, `cargo_metadata`) do not affect
the claims under verification. -/

/-- The `Config` struct (src/src/lib.rs:139). `ispc_files` are the paths
pushed by `Config::file`; `debug` and `opt_level` are the user overrides
(`None` means: fall back to the environment). -/
structure Config where
  ispc_files : List String
  debug : Option Bool
  opt_level : Option Nat
  deriving Repr, DecidableEq

/-- `Config::get_debug` (src/src/lib.rs:308): the user-set flag if present,
otherwise the value derived from `env("DEBUG")`. -/
def Config.get_debug (c : Config) (env_debug : Bool) : Bool :=
  c.debug.getD env_debug

/-- `Config::get_opt_level` (src/src/lib.rs:315): the user-set level if
present, otherwise the value parsed from `env("OPT_LEVEL")`. -/
def Config.get_opt_level (c : Config) (env_opt : Nat) : Nat :=
  c.opt_level.getD env_opt

/-- `Config::default_args` (src/src/lib.rs:277-297): `-g` when the
effective debug flag is set, then `-O0`/`-O1`/`-O2`/`-O3` for effective
optimization levels 0..3 (nothing otherwise), then `--pic` when
`cfg!(unix)` holds. -/
def Config.default_args (c : Config) (env_debug : Bool) (env_opt : Nat)
    (unix : Bool) : List String :=
  (if c.get_debug env_debug then ["-g"] else [])
    ++ (if c.get_opt_level env_opt = 0 then ["-O0"]
        else if c.get_opt_level env_opt = 1 then ["-O1"]
        else if c.get_opt_level env_opt = 2 then ["-O2"]
        else if c.get_opt_level env_opt = 3 then ["-O3"]
        else [])
    ++ (if unix then ["--pic"] else [])

/-! ## Path semantics used by `Config::compile`

`Config::compile` (src/src/lib.rs:210-212) calls
`s.file_stem().expect("ISPC source files must be files")` on every
configured source path before invoking the compiler. The following
definitions embed the behaviour of Rust's `std::path::Path::file_name`
and `Path::file_stem` for UTF-8 paths: `file_name` is the last normal
component of the path (`None` when the path ends in `..` or has no
component), and `file_stem` is the part of the file name before its last
`.`, the whole name when there is no `.` past the first character. -/

/-- Split a character list at every occurrence of `sep`. -/
def splitOnChar (sep : Char) (l : List Char) : List (List Char) :=
  l.foldr
    (fun ch acc =>
      match acc with
      | a :: rest => if ch = sep then [] :: a :: rest else (ch :: a) :: rest
      | [] => [[ch]])
    [[]]

/-- The normal components of a path: split on `/`, dropping empty
components and the current-directory component `.`. -/
def path_components (p : String) : List (List Char) :=
  (splitOnChar '/' p.data).filter (fun c => c ≠ [] ∧ c ≠ ['.'])

/-- Rust `Path::file_name`: the final component, unless the path
terminates in `..` (or has no component at all). -/
def file_name (p : String) : Option (List Char) :=
  match (path_components p).getLast? with
  | some c => if c = ['.', '.'] then none else some c
  | none => none

/-- The stem of a file name: the portion before the last `.`, or the
whole name when that portion would be empty or there is no `.`. -/
def stem_of_name (name : List Char) : List Char :=
  let parts := splitOnChar '.' name
  if parts.length ≤ 1 then name
  else
    let before := List.intercalate ['.'] parts.dropLast
    if before = [] then name else before

/-- Rust `Path::file_stem` as used on the configured source paths. -/
def file_stem (p : String) : Option (List Char) :=
  (file_name p).map stem_of_name

/-- The per-file name computation performed by `Config::compile`
(src/src/lib.rs:210-214) before any compiler invocation: for each source
path, take its `file_stem` — `.expect("ISPC source files must be files")`
panics when the stem is absent, modelled as `Except.error` with the panic
message — and form the `<stem>_ispc` output name. The first failing path
aborts the whole computation, exactly as the Rust `expect` aborts
`compile` before `Command::new("ispc")` ever runs. -/
def compile_stems : List String → Except String (List (List Char))
  | [] => .ok []
  | f :: rest =>
    match file_stem f with
    | none => .error "ISPC source files must be files"
    | some st => (compile_stems rest).map (fun l => (st ++ "_ispc".data) :: l)

/-! ## The task runtime (`ISPCAlloc` / `ISPCLaunch` / `ISPCSync`,
src/src/lib.rs:336-432)

The task-model file (`mod task;`) is not part of the sources; the
`Context`, `TaskGroup`, chunk iteration and chunk execution are modelled
from the spec where the embedding needs them, as noted per definition.
Opaque pointers (task function, data) are modelled as `Nat` identifiers,
and a context handle by the id of the context it names: every use the
code makes of a handle goes through an id comparison
(src/src/lib.rs:376, 429) or dereferences the live context it points to. -/

/-- A 3D task extent `(n0, n1, n2)`, the `(i32, i32, i32)` counts passed
to `Context::launch` (src/src/lib.rs:393). -/
abbrev Extent := Int × Int × Int

/-- Total flattened task count `n0 * n1 * n2` of an extent. -/
def totalTasks (e : Extent) : Nat := (e.1 * e.2.1 * e.2.2).toNat

/-- Modelled from the spec: the 3D coordinates recovered from a flattened
index via the extent (x fastest). -/
def taskCoord (e : Extent) (i : Nat) : Int × Int × Int :=
  ((i % e.1.toNat : Nat), ((i / e.1.toNat) % e.2.1.toNat : Nat),
    (i / (e.1.toNat * e.2.1.toNat) : Nat))

/-- One task group, as produced by `Context::launch`. Modelled from the
spec: the task `function`, the `data` pointer, the 3D `extent`, and the
`done` completion flag (initially false, set by the Sync Engine). -/
structure TaskGroup where
  fn : Nat
  data : Nat
  extent : Extent
  done : Bool
  deriving DecidableEq

/-- A context (`Context` of the missing task.rs, modelled from the spec):
its process-unique `id`, the arena — recorded as the (size, alignment)
list of its blocks — and the ordered group sequence. -/
structure Context where
  id : Nat
  arena : List (Nat × Nat)
  groups : List TaskGroup
  deriving DecidableEq

/-- The process-wide mutable state: `TASK_LIST` (src/src/lib.rs:336) and
`NEXT_TASK_ID` (src/src/lib.rs:338). -/
structure Registry where
  list : List Context
  nextId : Nat
  deriving DecidableEq

/-- The state at process start: empty task list, id counter at zero. -/
def Registry.init : Registry := ⟨[], 0⟩

/-- Modelled from the spec: `chunks(chunk_size)` partitions the flattened
`[0, total)` index range into consecutive `(start, stop)` ranges of at
most `chunk_size` indices each (the chunk iterator lives in the missing
task.rs; src/src/lib.rs:411 consumes it as `tg.chunks(4)`). The `fuel`
argument only bounds the recursion; `total` steps always suffice when the
chunk size is positive. -/
def chunksFromAux (csize total : Nat) : Nat → Nat → List (Nat × Nat)
  | 0, _ => []
  | fuel + 1, start =>
    if start < total then
      (start, min (start + csize) total)
        :: chunksFromAux csize total fuel (start + csize)
    else []

/-- The chunk ranges of a flattened index space of `total` tasks. -/
def chunkRanges (csize total : Nat) : List (Nat × Nat) :=
  chunksFromAux csize total total 0

/-- One invocation of a task function, as performed by `Chunk::execute`:
the group's function and data, the flattened task index, the 3D
coordinates recovered from it, and the thread index / thread count
arguments. -/
structure Invocation where
  fn : Nat
  data : Nat
  taskIndex : Nat
  coord : Int × Int × Int
  threadIdx : Nat
  threadCount : Nat
  deriving DecidableEq

/-- A nested `ISPCLaunch` call performed by a task body: target handle,
function, data, and the three counts. -/
structure LaunchReq where
  handle : Nat
  fn : Nat
  data : Nat
  c0 : Int
  c1 : Int
  c2 : Int
  deriving DecidableEq

/-- Task-body behaviour: the nested launches every invocation of a given
task function performs. `fun _ => []` is the no-nesting case. -/
abbrev TaskEnv := Nat → List LaunchReq

/-- The group construction of `ISPCLaunch` (src/src/lib.rs:392-393, with
`Context::launch` modelled from the spec): a fresh group holding the
given function, data and counts, not yet done. -/
def mkTaskGroup (f d : Nat) (c0 c1 c2 : Int) : TaskGroup :=
  ⟨f, d, (c0, c1, c2), false⟩

/-- Apply `f` to the first context with id `h`: the model of mutating the
context a live handle points to. -/
def modifyFirst (f : Context → Context) : List Context → Nat → List Context
  | [], _ => []
  | c :: rest, h => if c.id = h then f c :: rest else c :: modifyFirst f rest h

/-- Append a launched group to the context named by handle `h`. -/
def launchInList (l : List Context) (h : Nat) (g : TaskGroup) : List Context :=
  modifyFirst (fun c => { c with groups := c.groups ++ [g] }) l h

/-- Perform the nested launches of one task-body invocation, in order. -/
def applyReqs (l : List Context) (reqs : List LaunchReq) : List Context :=
  reqs.foldl
    (fun acc r => launchInList acc r.handle (mkTaskGroup r.fn r.data r.c0 r.c1 r.c2)) l

/-- The flattened indices of a group in the order the `ISPCSync` loop
visits them (src/src/lib.rs:410-415): chunk by chunk via `tg.chunks(4)`,
and within a chunk in ascending index order. -/
def groupIndices (g : TaskGroup) : List Nat :=
  ((chunkRanges 4 (totalTasks g.extent)).map
    (fun p => List.range' p.1 (p.2 - p.1))).flatten

/-- The invocations `chunk.execute(0, 1)` performs over all chunks of one
group. Modelled from the spec: the task function is invoked once per
index in the chunk's range, with the 3D coordinates recovered from the
flattened index and the thread arguments `(0, 1)`. -/
def groupTrace (g : TaskGroup) : List Invocation :=
  (groupIndices g).map (fun i => ⟨g.fn, g.data, i, taskCoord g.extent i, 0, 1⟩)

/-- The registry effect of executing one group: each invocation performs
the nested launches of its task body. -/
def execEffects (env : TaskEnv) (g : TaskGroup) (l : List Context) : List Context :=
  (groupIndices g).foldl (fun acc _ => applyReqs acc (env g.fn)) l

/-- Set the `done` flag of the group at position `i`. Modelled from the
spec: the flag is set once every chunk of the group has executed. -/
def markDoneAt : List TaskGroup → Nat → List TaskGroup
  | [], _ => []
  | g :: rest, 0 => { g with done := true } :: rest
  | g :: rest, i + 1 => g :: markDoneAt rest i

/-- Mark group `i` of the context named by `h` as done. -/
def markCtxDone (l : List Context) (h : Nat) (i : Nat) : List Context :=
  modifyFirst (fun c => { c with groups := markDoneAt c.groups i }) l h

/-- The serial execution pass of `ISPCSync` (src/src/lib.rs:410-415): one
traversal of the groups the context held when the loop began — the
iterator of `context.iter()` is created once, so groups appended during
the pass by nested launches are not visited — executing every chunk of
each group in order and then marking the group done. Returns the updated
context list and the concatenated invocation trace. -/
def runGroups (env : TaskEnv) :
    List TaskGroup → Nat → Nat → List Context → List Context × List Invocation
  | [], _, _, l => (l, [])
  | g :: rest, h, i, l =>
    let l1 := execEffects env g l
    let l2 := markCtxDone l1 h i
    let p := runGroups env rest h (i + 1) l2
    (p.1, groupTrace g ++ p.2)

/-- `Context::current_tasks_done` (called at src/src/lib.rs:424; modelled
from the spec's resolution condition): every group of the context is done. -/
def current_tasks_done (c : Context) : Bool := c.groups.all (·.done)

/-- `ISPCSync` (src/src/lib.rs:398-432): resolve the handle to the live
context it points to (`none` models the undefined behaviour of a dead
handle), run the serial pass over that context's groups, evaluate
`context.current_tasks_done()` (line 424 — the result is only printed),
and erase the first context whose id matches the handle from `TASK_LIST`
(lines 428-431; the erasure is unconditional). Returns the new registry,
the invocation trace of the pass, and the value the resolution check had
at the moment of erasure. -/
def ispcSync (env : TaskEnv) (st : Registry) (handle : Nat) :
    Option (Registry × List Invocation × Bool) :=
  (st.list.find? (fun c => c.id == handle)).bind (fun c =>
    ((runGroups env c.groups handle 0 st.list).1.find?
        (fun c2 => handle == c2.id)).map (fun c2 =>
      (⟨(runGroups env c.groups handle 0 st.list).1.eraseP
          (fun c3 => handle == c3.id), st.nextId⟩,
        (runGroups env c.groups handle 0 st.list).2, current_tasks_done c2)))

/-- The `as usize` cast applied to the signed 64-bit size and the signed
32-bit alignment (src/src/lib.rs:380). -/
def toUsize (i : Int) : Nat := (i % (2 : Int) ^ 64).toNat

/-- `Context::new(id)` (src/src/lib.rs:363; modelled from the spec):
fresh context with the given id, empty arena, no groups. -/
def Context.new (id : Nat) : Context := ⟨id, [], []⟩

/-- `Context::alloc` (src/src/lib.rs:380; the arena is modelled from the
spec: bump-allocate a block of the requested size and alignment, never
freeing or relocating earlier blocks). The returned pointer is identified
by the owning context's id and the block's position in that arena. -/
def contextAlloc (c : Context) (size align : Nat) : Context × (Nat × Nat) :=
  ({ c with arena := c.arena ++ [(size, align)] }, (c.id, c.arena.length))

/-- The non-null branch of `ISPCAlloc` (src/src/lib.rs:372-378):
`list.iter_mut().find(|c| (*handle_ctx).id == c.id)` followed by the
allocation from the found context; `none` models the `unwrap` panic when
no live context matches the handle's id. -/
def allocFirst (size align : Nat) :
    List Context → Nat → Option (List Context × (Nat × Nat))
  | [], _ => none
  | c :: rest, h =>
    if h == c.id then
      let p := contextAlloc c size align
      some (p.1 :: rest, p.2)
    else (allocFirst size align rest h).map (fun q => (c :: q.1, q.2))

/-- `ISPCAlloc` (src/src/lib.rs:342-381). The in/out handle is modelled
by the id of the context it denotes (`none` = null). A null handle
creates a fresh context with id `NEXT_TASK_ID.fetch_add(1)`, pushes it
onto `TASK_LIST`, writes its identity through the handle pointer and
allocates from it; a non-null handle allocates from the live context
matching the handle's id, the `unwrap` panic on a dead handle being
modelled as `none`. Returns the registry, the handle value after the
call, and the returned pointer. -/
def ispcAlloc (st : Registry) (handle : Option Nat) (size align : Int) :
    Option (Registry × Nat × (Nat × Nat)) :=
  match handle with
  | none =>
    let p := contextAlloc (Context.new st.nextId) (toUsize size) (toUsize align)
    some (⟨st.list ++ [p.1], st.nextId + 1⟩, st.nextId, p.2)
  | some h =>
    (allocFirst (toUsize size) (toUsize align) st.list h).map
      (fun q => (⟨q.1, st.nextId⟩, h, q.2))

/-- `ISPCLaunch` (src/src/lib.rs:385-394): append one group holding the
given function, data and counts to the context the handle points to
(`Context::launch` modelled from the spec: construct and append — no
execution happens at launch time). The live-handle requirement of the
transmute is modelled by the `Option`; the empty invocation list records
that launching runs no task. -/
def ispcLaunch (st : Registry) (h : Nat) (f d : Nat) (c0 c1 c2 : Int) :
    Option (Registry × List Invocation) :=
  (st.list.find? (fun c => c.id == h)).map (fun _ =>
    (⟨launchInList st.list h (mkTaskGroup f d c0 c1 c2), st.nextId⟩, []))

/-- One ABI call transforming the process-wide state. The task
environment of a sync is arbitrary: task bodies may perform any pattern
of nested launches. -/
inductive Step : Registry → Registry → Prop where
  | allocNull : ∀ {st st2} (size align : Int) (h : Nat) (ptr : Nat × Nat),
      ispcAlloc st none size align = some (st2, h, ptr) → Step st st2
  | allocSome : ∀ {st st2} (h : Nat) (size align : Int) (h2 : Nat) (ptr : Nat × Nat),
      ispcAlloc st (some h) size align = some (st2, h2, ptr) → Step st st2
  | launch : ∀ {st st2} (h f d : Nat) (c0 c1 c2 : Int) (tr : List Invocation),
      ispcLaunch st h f d c0 c1 c2 = some (st2, tr) → Step st st2
  | sync : ∀ {st st2} (env : TaskEnv) (h : Nat) (tr : List Invocation) (dn : Bool),
      ispcSync env st h = some (st2, tr, dn) → Step st st2

/-- The registry states reachable from process start by ABI calls. -/
inductive Reachable : Registry → Prop where
  | init : Reachable Registry.init
  | step : ∀ st st2, Reachable st → Step st st2 → Reachable st2

/-- The states reachable from a given state by zero or more ABI calls:
the later part of a process run, used to relate a context created at one
point of the run to contexts created at any later point. -/
inductive ReachableFrom : Registry → Registry → Prop where
  | refl : ∀ st, ReachableFrom st st
  | step : ∀ st st2 st3, ReachableFrom st st2 → Step st2 st3 → ReachableFrom st st3

/-- The invocation sequence the spec prescribes for one group (stated
from the spec's words, to be compared with `groupTrace` derived from the
code): the task function applied exactly once to every flattened index
of `[0, n0*n1*n2)`, in ascending order, with the 3D coordinates
recovered from the index and the thread arguments `(0, 1)`. -/
def specGroupTrace (g : TaskGroup) : List Invocation :=
  (List.range (totalTasks g.extent)).map
    (fun i => ⟨g.fn, g.data, i, taskCoord g.extent i, 0, 1⟩)

/-- The registry invariant: every live context id is below the id
counter, and live ids are pairwise distinct. -/
def RegistryInv (st : Registry) : Prop :=
  (∀ i ∈ st.list.map (·.id), i < st.nextId) ∧ (st.list.map (·.id)).Nodup

/-- Task environment of the C1 scenario: task function 1, when invoked,
launches one further group (function 2, one task) onto context 0 — its
own context — through the handle its data block carries; every other
function is inert. -/
def envC1 : TaskEnv := fun f => if f = 1 then [⟨0, 2, 0, 1, 1, 1⟩] else []

/-- Start state of the C1 scenario: one live context (id 0) holding one
launched group that runs task function 1 on a single task. -/
def stC1 : Registry := ⟨[⟨0, [], [⟨1, 0, (1, 1, 1), false⟩]⟩], 1⟩

/-- Task environment of the C8 scenario: task function 1 launches a
two-task group of function 2 onto its own context (handle 5) when
invoked; every other function is inert. -/
def envC8 : TaskEnv := fun f => if f = 1 then [⟨5, 2, 0, 2, 1, 1⟩] else []

/-- Start state of the C8 scenario: the context to be synced (id 5, one
single-task group of function 1) and a second live context (id 3) that
still holds an incomplete group of function 4. -/
def stC8 : Registry :=
  ⟨[⟨5, [], [⟨1, 9, (1, 1, 1), false⟩]⟩, ⟨3, [], [⟨4, 0, (1, 1, 1), false⟩]⟩], 6⟩

end IspcRs

/-- C9: for an effective optimization level above 3 the ISPC argument list
carries no `-O` flag at all; the debug flag independently contributes `-g`
and on Unix `--pic` is present. -/
theorem claim_C9_no_opt_flag_above_3 (c : IspcRs.Config) (env_debug : Bool)
    (env_opt : Nat) (unix : Bool) (h : 3 < c.get_opt_level env_opt) :
    c.default_args env_debug env_opt unix
      = (if c.get_debug env_debug then ["-g"] else [])
        ++ (if unix then ["--pic"] else []) := by
  unfold IspcRs.Config.default_args
  have h0 : c.get_opt_level env_opt ≠ 0 := by omega
  have h1 : c.get_opt_level env_opt ≠ 1 := by omega
  have h2 : c.get_opt_level env_opt ≠ 2 := by omega
  have h3 : c.get_opt_level env_opt ≠ 3 := by omega
  simp [h0, h1, h2, h3]

/-- Witness for C9 at `opt_level(4)`, debug on, Unix. -/
theorem claim_C9_witness :
    3 < (IspcRs.Config.mk [] none (some 4)).get_opt_level 2
      ∧ (IspcRs.Config.mk [] none (some 4)).default_args true 2 true
          = (if (IspcRs.Config.mk [] none (some 4)).get_debug true
              then ["-g"] else [])
            ++ (if true then ["--pic"] else []) :=
  ⟨by decide, claim_C9_no_opt_flag_above_3 _ true 2 true (by decide)⟩

/-- C10: `Config::compile` panics (here: aborts with the `expect` message)
on a source path without a file stem, such as `".."`, instead of
reporting failure through its boolean return value; the abort happens
before the compiler would be invoked. -/
theorem claim_C10_compile_panics_on_stemless_path :
    IspcRs.compile_stems [".."]
      = Except.error "ISPC source files must be files" := by
  rfl

/-! ## Chunk iteration: helper lemmas -/

/-- Once the start has passed the end of the index space, no chunk is
produced, whatever the fuel. -/
theorem chunksFromAux_eq_nil (csize total f s : Nat) (h : ¬ s < total) :
    IspcRs.chunksFromAux csize total f s = [] := by
  cases f <;> simp [IspcRs.chunksFromAux, h]

/-- The ranges produced from `start` concatenate to exactly
`[start, total)`, provided the fuel covers the remaining distance. -/
theorem chunksFromAux_flatten (csize total : Nat) (hc : 1 ≤ csize) :
    ∀ fuel start, total - start ≤ fuel →
      ((IspcRs.chunksFromAux csize total fuel start).map
          (fun p => List.range' p.1 (p.2 - p.1))).flatten
        = List.range' start (total - start) := by
  intro fuel
  induction fuel with
  | zero =>
    intro start h
    have h0 : total - start = 0 := by omega
    simp [IspcRs.chunksFromAux, h0]
  | succ n ih =>
    intro start h
    by_cases hs : start < total
    · simp only [IspcRs.chunksFromAux, if_pos hs, List.map_cons, List.flatten_cons]
      rw [ih (start + csize) (by omega)]
      by_cases hlt : start + csize ≤ total
      · have hmin : min (start + csize) total = start + csize := by omega
        rw [hmin]
        have h1 : start + csize - start = csize := by omega
        rw [h1]
        rw [List.range'_append_1 start csize (total - (start + csize))]
        have h2 : total - (start + csize) + csize = total - start := by omega
        rw [h2]
      · have hmin : min (start + csize) total = total := by omega
        rw [hmin]
        have h1 : total - (start + csize) = 0 := by omega
        rw [h1]
        simp
    · rw [chunksFromAux_eq_nil csize total (n + 1) start hs]
      have h0 : total - start = 0 := by omega
      simp [h0]

/-- Every produced chunk is non-empty and at most `csize` long. -/
theorem chunksFromAux_mem (csize total : Nat) (hc : 1 ≤ csize) :
    ∀ fuel start p, p ∈ IspcRs.chunksFromAux csize total fuel start →
      p.1 < p.2 ∧ p.2 - p.1 ≤ csize := by
  intro fuel
  induction fuel with
  | zero => simp [IspcRs.chunksFromAux]
  | succ n ih =>
    intro start p hp
    by_cases hs : start < total
    · simp only [IspcRs.chunksFromAux, if_pos hs, List.mem_cons] at hp
      rcases hp with rfl | hp
      · refine ⟨?_, ?_⟩ <;> simp <;> omega
      · exact ih _ _ hp
    · rw [chunksFromAux_eq_nil csize total (n + 1) start hs] at hp
      simp at hp

/-- Every chunk that is followed by another chunk is exactly `csize`
long: only the last chunk may be shorter. -/
theorem chunksFromAux_nonlast (csize total : Nat) (hc : 1 ≤ csize) :
    ∀ fuel start, total - start ≤ fuel →
      ∀ i p, (IspcRs.chunksFromAux csize total fuel start)[i]? = some p →
        i + 1 < (IspcRs.chunksFromAux csize total fuel start).length →
        p.2 - p.1 = csize := by
  intro fuel
  induction fuel with
  | zero =>
    intro start _ i p hp _
    simp [IspcRs.chunksFromAux] at hp
  | succ n ih =>
    intro start hfuel i p hp hlen
    by_cases hs : start < total
    · simp only [IspcRs.chunksFromAux, if_pos hs] at hp hlen
      cases i with
      | zero =>
        have hrest : IspcRs.chunksFromAux csize total n (start + csize) ≠ [] := by
          intro hnil
          rw [hnil] at hlen
          simp at hlen
        have hlt : start + csize < total := by
          by_contra hge
          exact hrest (chunksFromAux_eq_nil csize total n (start + csize) hge)
        simp only [List.getElem?_cons_zero, Option.some.injEq] at hp
        subst hp
        simp
        omega
      | succ j =>
        simp only [List.getElem?_cons_succ] at hp
        simp only [List.length_cons] at hlen
        exact ih (start + csize) (by omega) j p hp (by omega)
    · rw [chunksFromAux_eq_nil csize total (n + 1) start hs] at hp
      simp at hp

/-- C6: for every total task count and every chunk size of at least 1,
the chunk iteration partitions the flattened index space `[0, total)`
into contiguous, non-overlapping ranges in ascending order whose
concatenation is exactly `[0, total)`; every range is non-empty and at
most `chunk_size` long, and every range other than the last is exactly
`chunk_size` long. -/
theorem claim_C6_chunks_partition (total csize : Nat) (hc : 1 ≤ csize) :
    (((IspcRs.chunkRanges csize total).map
        (fun p => List.range' p.1 (p.2 - p.1))).flatten = List.range total)
    ∧ (∀ p ∈ IspcRs.chunkRanges csize total, p.1 < p.2 ∧ p.2 - p.1 ≤ csize)
    ∧ (∀ i p, (IspcRs.chunkRanges csize total)[i]? = some p →
        i + 1 < (IspcRs.chunkRanges csize total).length → p.2 - p.1 = csize) := by
  refine ⟨?_, ?_, ?_⟩
  · rw [IspcRs.chunkRanges, chunksFromAux_flatten csize total hc total 0 (by omega)]
    simp [List.range_eq_range']
  · intro p hp
    exact chunksFromAux_mem csize total hc total 0 p hp
  · intro i p hp hlen
    exact chunksFromAux_nonlast csize total hc total 0 (by omega) i p hp hlen

/-- Witness for C6 at `total = 10`, `chunk_size = 4` (ranges
`[0,4), [4,8), [8,10)`). -/
theorem claim_C6_witness :
    1 ≤ 4
    ∧ ((((IspcRs.chunkRanges 4 10).map
          (fun p => List.range' p.1 (p.2 - p.1))).flatten = List.range 10)
      ∧ (∀ p ∈ IspcRs.chunkRanges 4 10, p.1 < p.2 ∧ p.2 - p.1 ≤ 4)
      ∧ (∀ i p, (IspcRs.chunkRanges 4 10)[i]? = some p →
          i + 1 < (IspcRs.chunkRanges 4 10).length → p.2 - p.1 = 4)) :=
  ⟨by decide, claim_C6_chunks_partition 10 4 (by decide)⟩

/-! ## Sync execution: helper lemmas -/

/-- The chunk-by-chunk index enumeration of a group covers exactly the
flattened range `[0, n0*n1*n2)`, in ascending order. -/
theorem groupIndices_eq_range (g : IspcRs.TaskGroup) :
    IspcRs.groupIndices g = List.range (IspcRs.totalTasks g.extent) := by
  rw [IspcRs.groupIndices, IspcRs.chunkRanges,
    chunksFromAux_flatten 4 (IspcRs.totalTasks g.extent) (by omega) _ 0 (by omega)]
  simp [List.range_eq_range']

/-- The invocation trace the code produces for one group coincides with
the one the spec prescribes. -/
theorem groupTrace_eq_spec (g : IspcRs.TaskGroup) :
    IspcRs.groupTrace g = IspcRs.specGroupTrace g := by
  rw [IspcRs.groupTrace, IspcRs.specGroupTrace, groupIndices_eq_range]

/-- The trace of the serial pass is the concatenation of the per-group
traces of the snapshot, independent of the registry contents, the handle
and the group position. -/
theorem runGroups_trace (env : IspcRs.TaskEnv) :
    ∀ (gs : List IspcRs.TaskGroup) (h i : Nat) (l : List IspcRs.Context),
      (IspcRs.runGroups env gs h i l).2 = (gs.map IspcRs.groupTrace).flatten := by
  intro gs
  induction gs with
  | nil => intro h i l; rfl
  | cons g rest ih => intro h i l; simp [IspcRs.runGroups, ih]

/-- `modifyFirst` with an id-preserving function preserves the id
sequence of the context list. -/
theorem modifyFirst_map_id (f : IspcRs.Context → IspcRs.Context)
    (hf : ∀ c, (f c).id = c.id) :
    ∀ (l : List IspcRs.Context) (h : Nat),
      (IspcRs.modifyFirst f l h).map (·.id) = l.map (·.id) := by
  intro l
  induction l with
  | nil => intro h; rfl
  | cons c rest ih =>
    intro h
    by_cases hc : c.id = h <;> simp [IspcRs.modifyFirst, hc, hf, ih]

/-- Appending a launched group preserves the id sequence. -/
theorem launchInList_map_id (l : List IspcRs.Context) (h : Nat) (g : IspcRs.TaskGroup) :
    (IspcRs.launchInList l h g).map (·.id) = l.map (·.id) := by
  rw [IspcRs.launchInList]
  exact modifyFirst_map_id (fun c => { c with groups := c.groups ++ [g] })
    (fun _ => rfl) l h

/-- Nested launches preserve the id sequence. -/
theorem applyReqs_map_id :
    ∀ (reqs : List IspcRs.LaunchReq) (l : List IspcRs.Context),
      (IspcRs.applyReqs l reqs).map (·.id) = l.map (·.id) := by
  intro reqs
  induction reqs with
  | nil => intro l; rfl
  | cons r rest ih =>
    intro l
    rw [IspcRs.applyReqs, List.foldl_cons]
    have := ih (IspcRs.launchInList l r.handle
      (IspcRs.mkTaskGroup r.fn r.data r.c0 r.c1 r.c2))
    rw [IspcRs.applyReqs] at this
    rw [this, launchInList_map_id]

/-- Executing the effects of one group preserves the id sequence. -/
theorem execEffects_map_id (env : IspcRs.TaskEnv) (g : IspcRs.TaskGroup) :
    ∀ l, (IspcRs.execEffects env g l).map (·.id) = l.map (·.id) := by
  have key : ∀ (idxs : List Nat) (l : List IspcRs.Context),
      (idxs.foldl (fun acc _ => IspcRs.applyReqs acc (env g.fn)) l).map (·.id)
        = l.map (·.id) := by
    intro idxs
    induction idxs with
    | nil => intro l; rfl
    | cons i rest ih =>
      intro l
      rw [List.foldl_cons, ih, applyReqs_map_id]
  intro l
  rw [IspcRs.execEffects]
  exact key _ l

/-- Marking a group done preserves the id sequence. -/
theorem markCtxDone_map_id (l : List IspcRs.Context) (h i : Nat) :
    (IspcRs.markCtxDone l h i).map (·.id) = l.map (·.id) := by
  rw [IspcRs.markCtxDone]
  exact modifyFirst_map_id (fun c => { c with groups := IspcRs.markDoneAt c.groups i })
    (fun _ => rfl) l h

/-- The serial pass preserves the id sequence of the context list. -/
theorem runGroups_map_id (env : IspcRs.TaskEnv) :
    ∀ (gs : List IspcRs.TaskGroup) (h i : Nat) (l : List IspcRs.Context),
      ((IspcRs.runGroups env gs h i l).1).map (·.id) = l.map (·.id) := by
  intro gs
  induction gs with
  | nil => intro h i l; rfl
  | cons g rest ih =>
    intro h i l
    rw [IspcRs.runGroups]
    rw [ih, markCtxDone_map_id, execEffects_map_id]

/-- C2: for every call sequence in which no task body performs nested
launches, `ISPCSync` on a live handle invokes the task function of each
group launched on that handle exactly once per flattened index of the
group's extent, in ascending index order, each invocation receiving the
3D coordinates recovered from the flattened index and the thread
arguments `(0, 1)`: the emitted invocation trace is exactly the
spec-prescribed trace of the context's groups, in launch order. -/
theorem claim_C2_sync_runs_each_index_once
    (env : IspcRs.TaskEnv) (st : IspcRs.Registry) (h : Nat) (c : IspcRs.Context)
    (henv : ∀ f, env f = [])
    (hc : st.list.find? (fun x => x.id == h) = some c) :
    ∃ st2 dn, IspcRs.ispcSync env st h
      = some (st2, (c.groups.map IspcRs.specGroupTrace).flatten, dn) := by
  have hmem : c ∈ st.list := List.mem_of_find?_eq_some hc
  have hcid : c.id = h := by
    have := List.find?_some hc
    simpa using this
  have hids : ((IspcRs.runGroups env c.groups h 0 st.list).1).map (·.id)
      = st.list.map (·.id) := runGroups_map_id env c.groups h 0 st.list
  have hh : h ∈ ((IspcRs.runGroups env c.groups h 0 st.list).1).map (·.id) := by
    rw [hids]
    exact List.mem_map.mpr ⟨c, hmem, hcid⟩
  obtain ⟨c2, hc2mem, hc2id⟩ := List.mem_map.mp hh
  have hfind : ((IspcRs.runGroups env c.groups h 0 st.list).1.find?
      (fun x => h == x.id)).isSome :=
    List.find?_isSome.mpr ⟨c2, hc2mem, by simp [hc2id]⟩
  obtain ⟨c3, hc3⟩ := Option.isSome_iff_exists.mp hfind
  have htr : (IspcRs.runGroups env c.groups h 0 st.list).2
      = (c.groups.map IspcRs.specGroupTrace).flatten := by
    rw [runGroups_trace env c.groups h 0 st.list,
      funext groupTrace_eq_spec]
  have heq : IspcRs.ispcSync env st h
      = some (⟨(IspcRs.runGroups env c.groups h 0 st.list).1.eraseP
            (fun x => h == x.id), st.nextId⟩,
          (c.groups.map IspcRs.specGroupTrace).flatten,
          IspcRs.current_tasks_done c3) := by
    simp only [IspcRs.ispcSync, hc, Option.some_bind, hc3, Option.map_some', htr]
  exact ⟨_, _, heq⟩

/-- Witness for C2: the scenario `Launch(f, data, (5,1,1))` then `Sync`
on context 0 — function 7 is invoked exactly once per flattened index
0..4, with coordinates (0,0,0) through (4,0,0) and thread arguments
(0, 1). -/
theorem claim_C2_witness :
    (∀ f, (fun _ : Nat => ([] : List IspcRs.LaunchReq)) f = [])
    ∧ ((IspcRs.Registry.mk [⟨0, [], [⟨7, 3, (5, 1, 1), false⟩]⟩] 1).list.find?
        (fun x => x.id == 0) = some ⟨0, [], [⟨7, 3, (5, 1, 1), false⟩]⟩)
    ∧ (∃ st2 dn,
        IspcRs.ispcSync (fun _ => [])
            (IspcRs.Registry.mk [⟨0, [], [⟨7, 3, (5, 1, 1), false⟩]⟩] 1) 0
          = some (st2,
              ((IspcRs.Context.mk 0 [] [⟨7, 3, (5, 1, 1), false⟩]).groups.map
                IspcRs.specGroupTrace).flatten, dn))
    ∧ IspcRs.specGroupTrace ⟨7, 3, (5, 1, 1), false⟩
        = [⟨7, 3, 0, (0, 0, 0), 0, 1⟩, ⟨7, 3, 1, (1, 0, 0), 0, 1⟩,
           ⟨7, 3, 2, (2, 0, 0), 0, 1⟩, ⟨7, 3, 3, (3, 0, 0), 0, 1⟩,
           ⟨7, 3, 4, (4, 0, 0), 0, 1⟩] :=
  ⟨fun _ => rfl, rfl,
    claim_C2_sync_runs_each_index_once (fun _ => [])
      (IspcRs.Registry.mk [⟨0, [], [⟨7, 3, (5, 1, 1), false⟩]⟩] 1) 0
      ⟨0, [], [⟨7, 3, (5, 1, 1), false⟩]⟩ (fun _ => rfl) rfl,
    rfl⟩

/-! ## Allocation: helper lemmas -/

/-- The non-null `ISPCAlloc` branch characterized: when a live context
matches the handle, the arena of the first matching context is extended
by one block and the new block is the returned pointer. -/
theorem allocFirst_eq (s a : Nat) :
    ∀ (l : List IspcRs.Context) (h : Nat) (c : IspcRs.Context),
      l.find? (fun x => h == x.id) = some c →
      IspcRs.allocFirst s a l h
        = some (IspcRs.modifyFirst
              (fun x => { x with arena := x.arena ++ [(s, a)] }) l h,
            (c.id, c.arena.length)) := by
  intro l
  induction l with
  | nil => intro h c hc; simp at hc
  | cons c0 rest ih =>
    intro h c hc
    by_cases hid : (h == c0.id) = true
    · simp only [List.find?_cons, hid] at hc
      have hc0 : c0 = c := by simpa using hc
      subst hc0
      have hid2 : c0.id = h := by
        have hsymm : h = c0.id := by simpa using hid
        omega
      simp [IspcRs.allocFirst, hid, IspcRs.modifyFirst, hid2, IspcRs.contextAlloc]
    · have hfalse : (h == c0.id) = false := by simpa using hid
      simp only [List.find?_cons, hfalse] at hc
      have hid2 : ¬ c0.id = h := by
        intro hh
        exact hid (by simp [hh])
      simp [IspcRs.allocFirst, hid, IspcRs.modifyFirst, hid2, ih _ _ hc]

/-- C4: a null-handle `Alloc` creates and registers a fresh context with
the next id, writes that identity to the handle, and returns a block of
the requested size and alignment as the first allocation of the new
context's arena; a non-null `Alloc` on a live handle appends one such
block to that context's arena and returns it, creating no context and
leaving the id counter and every other context untouched. -/
theorem claim_C4_alloc_null_creates_nonnull_reuses
    (st : IspcRs.Registry) (size align : Int) :
    (IspcRs.ispcAlloc st none size align
      = some (⟨st.list
            ++ [⟨st.nextId, [(IspcRs.toUsize size, IspcRs.toUsize align)], []⟩],
          st.nextId + 1⟩, st.nextId, (st.nextId, 0)))
    ∧ (∀ h c, st.list.find? (fun x => h == x.id) = some c →
        IspcRs.ispcAlloc st (some h) size align
          = some (⟨IspcRs.modifyFirst
                (fun x => { x with
                  arena := x.arena ++ [(IspcRs.toUsize size, IspcRs.toUsize align)] })
                st.list h, st.nextId⟩,
              h, (c.id, c.arena.length))) := by
  constructor
  · rfl
  · intro h c hc
    rw [IspcRs.ispcAlloc,
      allocFirst_eq (IspcRs.toUsize size) (IspcRs.toUsize align) st.list h c hc,
      Option.map_some']

/-- Witness for C4: null-handle call on a one-context registry, then a
non-null call against the existing context (id 2). -/
theorem claim_C4_witness :
    (IspcRs.ispcAlloc (IspcRs.Registry.mk [⟨2, [(1, 1)], []⟩] 3) none 8 16
      = some (⟨[⟨2, [(1, 1)], []⟩, ⟨3, [(8, 16)], []⟩], 4⟩, 3, (3, 0)))
    ∧ ((IspcRs.Registry.mk [⟨2, [(1, 1)], []⟩] 3).list.find?
        (fun x => 2 == x.id) = some ⟨2, [(1, 1)], []⟩)
    ∧ (IspcRs.ispcAlloc (IspcRs.Registry.mk [⟨2, [(1, 1)], []⟩] 3) (some 2) 8 16
      = some (⟨[⟨2, [(1, 1), (8, 16)], []⟩], 3⟩, 2, (2, 1))) := by
  refine ⟨?_, rfl, ?_⟩
  · have := (claim_C4_alloc_null_creates_nonnull_reuses
      (IspcRs.Registry.mk [⟨2, [(1, 1)], []⟩] 3) 8 16).1
    simpa using this
  · have := (claim_C4_alloc_null_creates_nonnull_reuses
      (IspcRs.Registry.mk [⟨2, [(1, 1)], []⟩] 3) 8 16).2 2 ⟨2, [(1, 1)], []⟩ rfl
    simpa using this

/-! ## Launch: helper lemmas -/

/-- `find?` by id on a split list whose head part has no match. -/
theorem find?_id_split :
    ∀ (l1 : List IspcRs.Context) (c : IspcRs.Context) (l2 : List IspcRs.Context)
      (h : Nat), (∀ x ∈ l1, x.id ≠ h) → c.id = h →
      (l1 ++ c :: l2).find? (fun x => x.id == h) = some c := by
  intro l1
  induction l1 with
  | nil =>
    intro c l2 h _ hcid
    simp [List.find?_cons, hcid]
  | cons x rest ih =>
    intro c l2 h hl1 hcid
    have hx : (x.id == h) = false := by
      simp [hl1 x (by simp)]
    simp only [List.cons_append, List.find?_cons, hx]
    exact ih c l2 h (fun y hy => hl1 y (by simp [hy])) hcid

/-- `modifyFirst` on a split list whose head part has no match rewrites
exactly the splitting element. -/
theorem modifyFirst_split (f : IspcRs.Context → IspcRs.Context) :
    ∀ (l1 : List IspcRs.Context) (c : IspcRs.Context) (l2 : List IspcRs.Context)
      (h : Nat), (∀ x ∈ l1, x.id ≠ h) → c.id = h →
      IspcRs.modifyFirst f (l1 ++ c :: l2) h = l1 ++ f c :: l2 := by
  intro l1
  induction l1 with
  | nil =>
    intro c l2 h _ hcid
    simp [IspcRs.modifyFirst, hcid]
  | cons x rest ih =>
    intro c l2 h hl1 hcid
    have hx : ¬ x.id = h := hl1 x (by simp)
    simp only [List.cons_append, IspcRs.modifyFirst, if_neg hx, List.append_eq]
    rw [ih c l2 h (fun y hy => hl1 y (by simp [hy])) hcid]

/-- C7: `ISPCLaunch` on a live handle appends exactly one task group —
holding the given function, data pointer and extent, with `done` false —
at the end of that context's group sequence; no task function is invoked
(the invocation trace of the call is empty), the context's arena and its
previously launched groups are untouched, and every other context and
the id counter are unchanged. -/
theorem claim_C7_launch_appends_one_group
    (st : IspcRs.Registry) (h f d : Nat) (c0 c1 c2 : Int)
    (l1 : List IspcRs.Context) (c : IspcRs.Context) (l2 : List IspcRs.Context)
    (hsplit : st.list = l1 ++ c :: l2)
    (hl1 : ∀ x ∈ l1, x.id ≠ h) (hcid : c.id = h) :
    IspcRs.ispcLaunch st h f d c0 c1 c2
      = some (⟨l1 ++ { c with groups := c.groups ++ [⟨f, d, (c0, c1, c2), false⟩] } :: l2,
          st.nextId⟩, []) := by
  rw [IspcRs.ispcLaunch, hsplit, find?_id_split l1 c l2 h hl1 hcid, Option.map_some',
    IspcRs.launchInList, modifyFirst_split _ l1 c l2 h hl1 hcid]
  rfl

/-- Witness for C7: one live context (id 4) with an existing arena block
and an existing done group; launching function 9 with extent (2,3,1). -/
theorem claim_C7_witness :
    ((IspcRs.Registry.mk [⟨4, [(2, 4)], [⟨8, 8, (1, 1, 1), true⟩]⟩] 5).list
      = [] ++ (⟨4, [(2, 4)], [⟨8, 8, (1, 1, 1), true⟩]⟩ : IspcRs.Context) :: [])
    ∧ (∀ x ∈ ([] : List IspcRs.Context), x.id ≠ 4)
    ∧ ((⟨4, [(2, 4)], [⟨8, 8, (1, 1, 1), true⟩]⟩ : IspcRs.Context).id = 4)
    ∧ (IspcRs.ispcLaunch (IspcRs.Registry.mk [⟨4, [(2, 4)], [⟨8, 8, (1, 1, 1), true⟩]⟩] 5)
        4 9 10 2 3 1
      = some (⟨[] ++ (⟨4, [(2, 4)],
            [⟨8, 8, (1, 1, 1), true⟩, ⟨9, 10, (2, 3, 1), false⟩]⟩ : IspcRs.Context) :: [],
          5⟩, [])) := by
  refine ⟨rfl, by simp, rfl, ?_⟩
  exact claim_C7_launch_appends_one_group
    (IspcRs.Registry.mk [⟨4, [(2, 4)], [⟨8, 8, (1, 1, 1), true⟩]⟩] 5) 4 9 10 2 3 1
    [] ⟨4, [(2, 4)], [⟨8, 8, (1, 1, 1), true⟩]⟩ [] rfl (by simp) rfl

/-! ## Registry invariant: helper lemmas -/

/-- The non-null alloc branch preserves the id sequence. -/
theorem allocFirst_map_id (s a : Nat) :
    ∀ (l : List IspcRs.Context) (h : Nat) (l2 : List IspcRs.Context)
      (ptr : Nat × Nat),
      IspcRs.allocFirst s a l h = some (l2, ptr) →
      l2.map (·.id) = l.map (·.id) := by
  intro l
  induction l with
  | nil => intro h l2 ptr heq; simp [IspcRs.allocFirst] at heq
  | cons c0 rest ih =>
    intro h l2 ptr heq
    rw [IspcRs.allocFirst] at heq
    by_cases hid : (h == c0.id) = true
    · rw [if_pos hid] at heq
      simp only [Option.some.injEq, Prod.mk.injEq] at heq
      obtain ⟨hl2, -⟩ := heq
      subst hl2
      simp [IspcRs.contextAlloc]
    · rw [if_neg hid, Option.map_eq_some'] at heq
      obtain ⟨q, hq, heq2⟩ := heq
      simp only [Prod.mk.injEq] at heq2
      obtain ⟨hl2, -⟩ := heq2
      subst hl2
      simp only [List.map_cons]
      rw [ih h q.1 q.2 hq]

/-- Every ABI step either registers one fresh context carrying the
current counter value while bumping the counter, or keeps the id
sequence (up to removal) and the counter unchanged. -/
theorem step_id_shape (st st2 : IspcRs.Registry) (hstep : IspcRs.Step st st2) :
    (st2.list.map (·.id) = st.list.map (·.id) ++ [st.nextId]
      ∧ st2.nextId = st.nextId + 1)
    ∨ ((st2.list.map (·.id)).Sublist (st.list.map (·.id))
      ∧ st2.nextId = st.nextId) := by
  cases hstep with
  | allocNull size align h ptr heq =>
    left
    rw [IspcRs.ispcAlloc] at heq
    simp only [Option.some.injEq, Prod.mk.injEq] at heq
    obtain ⟨hst2, -, -⟩ := heq
    subst hst2
    constructor
    · simp [IspcRs.contextAlloc, IspcRs.Context.new]
    · rfl
  | allocSome h size align h2 ptr heq =>
    right
    rw [IspcRs.ispcAlloc, Option.map_eq_some'] at heq
    obtain ⟨q, hq, heq2⟩ := heq
    simp only [Prod.mk.injEq] at heq2
    obtain ⟨hst2, -, -⟩ := heq2
    subst hst2
    exact ⟨(allocFirst_map_id _ _ st.list h q.1 q.2 hq) ▸ List.Sublist.refl _, rfl⟩
  | launch h f d c0 c1 c2 tr heq =>
    right
    rw [IspcRs.ispcLaunch, Option.map_eq_some'] at heq
    obtain ⟨c, hc, heq2⟩ := heq
    simp only [Prod.mk.injEq] at heq2
    obtain ⟨hst2, -⟩ := heq2
    subst hst2
    exact ⟨(launchInList_map_id st.list h _) ▸ List.Sublist.refl _, rfl⟩
  | sync env h tr dn heq =>
    right
    rw [IspcRs.ispcSync, Option.bind_eq_some] at heq
    obtain ⟨c, hc, heq2⟩ := heq
    rw [Option.map_eq_some'] at heq2
    obtain ⟨c2, hc2, heq3⟩ := heq2
    simp only [Prod.mk.injEq] at heq3
    obtain ⟨hst2, -, -⟩ := heq3
    subst hst2
    constructor
    · have h1 := (List.eraseP_sublist
        (IspcRs.runGroups env c.groups h 0 st.list).1
        (p := fun c3 => h == c3.id)).map (·.id)
      rw [runGroups_map_id env c.groups h 0 st.list] at h1
      exact h1
    · rfl

/-- Every reachable registry state satisfies the id invariant. -/
theorem registry_inv_of_reachable :
    ∀ st, IspcRs.Reachable st → IspcRs.RegistryInv st := by
  intro st hr
  induction hr with
  | init => exact ⟨by simp [IspcRs.Registry.init], by simp [IspcRs.Registry.init]⟩
  | step st1 st2 hr1 hstep ih =>
    obtain ⟨hbound, hnodup⟩ := ih
    rcases step_id_shape st1 st2 hstep with ⟨hmap, hnext⟩ | ⟨hsub, hnext⟩
    · constructor
      · intro i hi
        rw [hmap] at hi
        rw [hnext]
        rcases List.mem_append.mp hi with hi | hi
        · exact Nat.lt_succ_of_lt (hbound i hi)
        · simp at hi
          omega
      · rw [hmap]
        refine List.Nodup.append hnodup (by simp) ?_
        intro a ha hb
        simp at hb
        subst hb
        exact absurd (hbound _ ha) (by omega)
    · constructor
      · intro i hi
        rw [hnext]
        exact hbound i (hsub.subset hi)
      · exact hnodup.sublist hsub

/-- One ABI call never decreases the `NEXT_TASK_ID` counter. -/
theorem step_nextId_mono (st st2 : IspcRs.Registry) (hstep : IspcRs.Step st st2) :
    st.nextId ≤ st2.nextId := by
  rcases step_id_shape st st2 hstep with ⟨-, h⟩ | ⟨-, h⟩ <;> omega

/-- Along any run, the `NEXT_TASK_ID` counter never decreases. -/
theorem reachableFrom_nextId_mono :
    ∀ st st2, IspcRs.ReachableFrom st st2 → st.nextId ≤ st2.nextId := by
  intro st st2 h
  induction h with
  | refl => exact Nat.le_refl _
  | step b c hab hbc ih => exact Nat.le_trans ih (step_nextId_mono b c hbc)

/-- A context brought into the registry by an ABI step — one whose id no
context of the pre-step registry carries — carries exactly the pre-step
counter value. -/
theorem step_new_id (st2 st3 : IspcRs.Registry) (hstep : IspcRs.Step st2 st3) :
    ∀ c2 ∈ st3.list, c2.id ∉ st2.list.map (·.id) → c2.id = st2.nextId := by
  intro c2 hc2 hnew
  rcases step_id_shape st2 st3 hstep with ⟨hmap, -⟩ | ⟨hsub, -⟩
  · have hid2 : c2.id ∈ st2.list.map (·.id) ++ [st2.nextId] := by
      rw [← hmap]
      exact List.mem_map.mpr ⟨c2, hc2, rfl⟩
    rcases List.mem_append.mp hid2 with hin | hin
    · exact absurd hin hnew
    · simpa using hin
  · exact absurd (hsub.subset (List.mem_map.mpr ⟨c2, hc2, rfl⟩)) hnew

/-- C5: context ids are assigned monotonically across the whole process
and are unique at every instant. In every reachable registry state the
ids of the live contexts are pairwise distinct; and whenever a context
`c1` is live at some reachable point of a run and a later ABI step of
that run brings a genuinely new context `c2` into the registry, `c2`'s
id is strictly larger than `c1`'s — also when `c1` has been removed in
between, so a dead context's id is never reused. -/
theorem claim_C5_ids_unique_and_monotonic
    (st1 st2 st3 : IspcRs.Registry) (hr : IspcRs.Reachable st1)
    (hrf : IspcRs.ReachableFrom st1 st2) (hstep : IspcRs.Step st2 st3) :
    (st1.list.map (·.id)).Nodup
    ∧ (∀ c2 ∈ st3.list, c2.id ∉ st2.list.map (·.id) →
        ∀ c1 ∈ st1.list, c1.id < c2.id) := by
  obtain ⟨hbound1, hnodup1⟩ := registry_inv_of_reachable st1 hr
  refine ⟨hnodup1, ?_⟩
  intro c2 hc2 hnew c1 hc1
  have h1 : c1.id < st1.nextId := hbound1 c1.id (List.mem_map.mpr ⟨c1, hc1, rfl⟩)
  have h2 : st1.nextId ≤ st2.nextId := reachableFrom_nextId_mono st1 st2 hrf
  have h3 : c2.id = st2.nextId := step_new_id st2 st3 hstep c2 hc2 hnew
  omega

/-- Witness for C5 across a removal: context 0 is created, then synced
away (the registry is empty again), then a later null alloc creates
context 1 — whose id is strictly larger than dead context 0's. -/
theorem claim_C5_witness :
    (((IspcRs.Registry.mk [⟨0, [(8, 16)], []⟩] 1).list.map (·.id)).Nodup)
    ∧ (∀ c2 ∈ (IspcRs.Registry.mk [⟨1, [(8, 16)], []⟩] 2).list,
        c2.id ∉ (IspcRs.Registry.mk [] 1).list.map (·.id) →
        ∀ c1 ∈ (IspcRs.Registry.mk [⟨0, [(8, 16)], []⟩] 1).list, c1.id < c2.id) :=
  claim_C5_ids_unique_and_monotonic
    (IspcRs.Registry.mk [⟨0, [(8, 16)], []⟩] 1)
    (IspcRs.Registry.mk [] 1)
    (IspcRs.Registry.mk [⟨1, [(8, 16)], []⟩] 2)
    (IspcRs.Reachable.step _ _ IspcRs.Reachable.init
      (IspcRs.Step.allocNull 8 16 0 (0, 0) rfl))
    (IspcRs.ReachableFrom.step _ _ _ (IspcRs.ReachableFrom.refl _)
      (IspcRs.Step.sync (fun _ => []) 0 [] true rfl))
    (IspcRs.Step.allocNull 8 16 1 (1, 0) rfl)

/-- C1 (evaluation of the code at the failing input): during the sync of
context 0, the single task of its one launched group launches a further
group onto context 0 itself; the serial pass does not visit the new
group, so the resolution check of src/src/lib.rs:424 — evaluated right
before the erasure — is `false`, yet `ISPCSync` erases the context from
the registry anyway (the removal at src/src/lib.rs:428-431 is
unconditional): a context holding a group with `done == false` is
removed. -/
theorem claim_C1_removes_unresolved_context :
    IspcRs.ispcSync IspcRs.envC1 IspcRs.stC1 0
      = some (⟨[], 1⟩, [⟨1, 0, 0, (0, 0, 0), 0, 1⟩], false) := rfl

/-- C8 (evaluation of the code at the failing input): syncing context 5,
whose single task launches a further two-task group onto context 5,
returns after one serial pass: the trace holds exactly the one invocation
of the snapshot pass, the resolution check is `false` (context 5 still
has an incomplete group), no chunk of the other live context (id 3, with
its own incomplete group) is ever executed, and context 5 is removed
unresolved — there is no help-anyone loop that would keep executing
until resolution. -/
theorem claim_C8_sync_returns_unresolved :
    IspcRs.ispcSync IspcRs.envC8 IspcRs.stC8 5
      = some (⟨[⟨3, [], [⟨4, 0, (1, 1, 1), false⟩]⟩], 6⟩,
          [⟨1, 9, 0, (0, 0, 0), 0, 1⟩], false) := rfl
